import Mathlib

/-
Verification development for the netgraph layout engine
(src/netgraph.py, src/netgraph/_edge_layout.py, src/netgraph/_main.py).

Conventions of the shallow embedding:

* Machine floats are modelled as rationals (ℚ); 2-d numpy vectors
  as pairs (Q2 = ℚ × ℚ) and position arrays as List Q2.
* numpy's sqrt (inside np.linalg.norm) is kept abstract: every function
  that needs it takes a parameter sq : ℚ → ℚ applied to the squared
  norm.  Universally quantified theorems hold for every sq; concrete
  evaluations instantiate sq with sqrtTable, a finite lookup that
  returns r for inputs r * r (exact on the perfect squares arising in
  the chosen inputs, where float sqrt is exact as well).
* ℚ division is total with x / 0 = 0.  Where the Python/numpy code can
  divide by zero (producing inf/nan), the checked variants below use
  qdivChecked, which returns none on a zero divisor, so that missing
  floors/clamps become observable.
* Python dicts keyed by edges are modelled as association lists
  List ((ℕ × ℕ) × value); node identifiers are naturals and node
  position dictionaries are functions ℕ → Q2.
-/

abbrev Q2 := ℚ × ℚ

def qadd (a b : Q2) : Q2 := (a.1 + b.1, a.2 + b.2)

def qsub (a b : Q2) : Q2 := (a.1 - b.1, a.2 - b.2)

def qscale (c : ℚ) (a : Q2) : Q2 := (c * a.1, c * a.2)

def qdot (a b : Q2) : ℚ := a.1 * b.1 + a.2 * b.2

/-- Squared euclidean norm of a 2-d vector; np.linalg.norm(v) is sq (sqnorm v). -/
def sqnorm (v : Q2) : ℚ := v.1 * v.1 + v.2 * v.2

/-- Finite square-root lookup used to instantiate the abstract sq parameter
on concrete inputs: returns the first listed root r with r * r = q, else 0. -/
def sqrtTable : List ℚ → ℚ → ℚ
  | [], _ => 0
  | r :: rest, q => if r * r = q then r else sqrtTable rest q

/-- Python int() applied to a float: truncation towards zero. -/
def pyInt (q : ℚ) : ℤ := if 0 ≤ q then ⌊q⌋ else ⌈q⌉

/-- numpy max() of a 1-d array (the source never maxes an empty array). -/
def listMax : List ℚ → ℚ
  | [] => 0
  | x :: xs => xs.foldl max x

/-- numpy min() of a 1-d array. -/
def listMin : List ℚ → ℚ
  | [] => 0
  | x :: xs => xs.foldl min x

/-- numpy mean() of a 1-d array. -/
def listMean (l : List ℚ) : ℚ := l.foldl (· + ·) 0 / (l.length : ℚ)

/-- Row i of a position array (arrays are only indexed in bounds in the source). -/
def posD (pos : List Q2) (i : ℕ) : Q2 := pos.getD i (0, 0)

/-- Map with the running row index, mirroring vectorised per-row numpy updates. -/
def mapIdxFrom (f : ℕ → Q2 → Q2) : ℕ → List Q2 → List Q2
  | _, [] => []
  | i, p :: rest => f i p :: mapIdxFrom f (i + 1) rest

/-
Force-directed node layout, from src/netgraph.py.
A is the (directed, weighted) adjacency matrix built by
_edge_list_to_sparse_matrix; kk is the spring constant k (when the
caller passes k=None both solvers compute the same default sqrt(1/n),
so a shared explicit kk is faithful for comparing them).
-/

/-- Net "force" on node i in _dense_fruchterman_reingold:
delta = pos[:,None,:] - pos[None,:,:]; distance clipped below at 0.01;
displacement = einsum(delta, k*k/distance**2 - A*distance/k), summed over j. -/
def dense_displacement (sq : ℚ → ℚ) (A : ℕ → ℕ → ℚ) (kk : ℚ)
    (pos : List Q2) (i : ℕ) : Q2 :=
  (List.range pos.length).foldl
    (fun acc j =>
      let delta := qsub (posD pos i) (posD pos j)
      let distance := max (sq (sqnorm delta)) (1 / 100)
      qadd acc (qscale (kk * kk / (distance * distance) - A i j * distance / kk) delta))
    (0, 0)

/-- Shared per-node displacement scaling of both solvers:
length = norm(displacement); length = where(length < 0.01, 0.1, length);
delta_pos = displacement * t / length. -/
def fr_scaled_step (sq : ℚ → ℚ) (t : ℚ) (displacement : Q2) : Q2 :=
  let length := sq (sqnorm displacement)
  qscale (t / (if length < 1 / 100 then 1 / 10 else length)) displacement

/-- One iteration of _dense_fruchterman_reingold: displacements are computed
for every row, then delta_pos[fixed] is zeroed before pos += delta_pos. -/
def dense_step (sq : ℚ → ℚ) (A : ℕ → ℕ → ℚ) (kk : ℚ) (fixed : List ℕ)
    (t : ℚ) (pos : List Q2) : List Q2 :=
  mapIdxFrom
    (fun i p =>
      let dp := fr_scaled_step sq t (dense_displacement sq A kk pos i)
      qadd p (if i ∈ fixed then (0, 0) else dp))
    0 pos

/-- Row loop of _sparse_fruchterman_reingold: rows in `fixed` are skipped
(`continue`), leaving their displacement at zero. -/
def sparse_displacement (sq : ℚ → ℚ) (A : ℕ → ℕ → ℚ) (kk : ℚ) (fixed : List ℕ)
    (pos : List Q2) (i : ℕ) : Q2 :=
  if i ∈ fixed then (0, 0) else dense_displacement sq A kk pos i

/-- One iteration of _sparse_fruchterman_reingold:
pos += (displacement * t / length).T for every row. -/
def sparse_step (sq : ℚ → ℚ) (A : ℕ → ℕ → ℚ) (kk : ℚ) (fixed : List ℕ)
    (t : ℚ) (pos : List Q2) : List Q2 :=
  mapIdxFrom
    (fun i p => qadd p (fr_scaled_step sq t (sparse_displacement sq A kk fixed pos i)))
    0 pos

/-- Iteration loop shared shape: run `n` steps, cooling t by dt after each. -/
def dense_loop (sq : ℚ → ℚ) (A : ℕ → ℕ → ℚ) (kk : ℚ) (fixed : List ℕ) (dt : ℚ) :
    ℕ → ℚ → List Q2 → List Q2
  | 0, _, pos => pos
  | n + 1, t, pos => dense_loop sq A kk fixed dt n (t - dt) (dense_step sq A kk fixed t pos)

def sparse_loop (sq : ℚ → ℚ) (A : ℕ → ℕ → ℚ) (kk : ℚ) (fixed : List ℕ) (dt : ℚ) :
    ℕ → ℚ → List Q2 → List Q2
  | 0, _, pos => pos
  | n + 1, t, pos => sparse_loop sq A kk fixed dt n (t - dt) (sparse_step sq A kk fixed t pos)

/-- _dense_fruchterman_reingold: the initial temperature is 0.1 times the
larger coordinate span of the initial positions; dt = t/(iterations+1). -/
def dense_fruchterman_reingold (sq : ℚ → ℚ) (A : ℕ → ℕ → ℚ) (kk : ℚ)
    (pos : List Q2) (fixed : List ℕ) (iterations : ℕ) : List Q2 :=
  let xs := pos.map Prod.fst
  let ys := pos.map Prod.snd
  let t := max (listMax xs - listMin xs) (listMax ys - listMin ys) * (1 / 10)
  let dt := t / ((iterations : ℚ) + 1)
  dense_loop sq A kk fixed dt iterations t pos

/-- _sparse_fruchterman_reingold: the initial temperature is the constant 0.1
(`fixed=None` becomes the empty list, as in the source). -/
def sparse_fruchterman_reingold (sq : ℚ → ℚ) (A : ℕ → ℕ → ℚ) (kk : ℚ)
    (pos : List Q2) (fixed : List ℕ) (iterations : ℕ) : List Q2 :=
  let t : ℚ := 1 / 10
  let dt := t / ((iterations : ℚ) + 1)
  sparse_loop sq A kk fixed dt iterations t pos

/-- _rescale_layout: per axis subtract the mean and take the largest absolute
coordinate over all axes; if that limit is positive, multiply every axis by
scale/lim. -/
def rescale_layout (pos : List Q2) (scale : ℚ) : List Q2 :=
  let xs := (pos.map Prod.fst).map (fun x => x - listMean (pos.map Prod.fst))
  let ys := (pos.map Prod.snd).map (fun y => y - listMean (pos.map Prod.snd))
  let lim := max (listMax (ys.map (fun y => |y|))) (max (listMax (xs.map (fun x => |x|))) 0)
  let centered := List.zip xs ys
  if 0 < lim then centered.map (fun p => (scale / lim * p.1, scale / lim * p.2)) else centered

/-- Solver dispatch of _fruchterman_reingold_layout: the sparse solver is used
for more than 500 nodes, the dense one otherwise. -/
def node_layout_core (sq : ℚ → ℚ) (A : ℕ → ℕ → ℚ) (kk : ℚ)
    (pos : List Q2) (fixed : List ℕ) (iterations : ℕ) : List Q2 :=
  if 500 < pos.length then sparse_fruchterman_reingold sq A kk pos fixed iterations
  else dense_fruchterman_reingold sq A kk pos fixed iterations

/-- _fruchterman_reingold_layout after pos_arr construction: positions given in
the caller's map are copied into the array verbatim (pos_arr[i] = pos[n]);
if fixed is None the result is rescaled and translated by center, otherwise
it is returned as the solver produced it. -/
def fruchterman_reingold_layout (sq : ℚ → ℚ) (A : ℕ → ℕ → ℚ) (kk : ℚ)
    (pos : List Q2) (fixed : Option (List ℕ)) (iterations : ℕ)
    (scale : ℚ) (center : Q2) : List Q2 :=
  let res := node_layout_core sq A kk pos (fixed.getD []) iterations
  match fixed with
  | none => (rescale_layout res scale).map (fun p => qadd p center)
  | some _ => res

/-- Largest absolute coordinate over both axes of a position array. -/
def maxAbsCoord (l : List Q2) : ℚ :=
  max (listMax (l.map (fun p => |p.1|))) (listMax (l.map (fun p => |p.2|)))

/-
Edge routing, from src/netgraph/_edge_layout.py.
Edges are (source, target) pairs of node ids.
-/

abbrev Edge := ℕ × ℕ

/-- Keys of an association list (dict keys; the source dicts have unique keys). -/
def alKeys {β : Type} (l : List (Edge × β)) : List Edge := l.map Prod.fst

/-- dict lookup with a default (the source only looks up present keys). -/
def alGet {β : Type} (l : List (Edge × β)) (k : Edge) (d : β) : β :=
  match l.find? (fun kv => kv.1 = k) with
  | some kv => kv.2
  | none => d

/-- In-place update of one dict entry (out[k] = f out[k]). -/
def alUpd {β : Type} (l : List (Edge × β)) (k : Edge) (f : β → β) : List (Edge × β) :=
  l.map (fun kv => if kv.1 = k then (kv.1, f kv.2) else kv)

/-- _get_straight_nonloop_edge_paths: each edge becomes the 2-point path
[position(source), position(target)]. -/
def get_straight_nonloop_edge_paths (edges : List Edge) (nodePos : ℕ → Q2) :
    List (Edge × List Q2) :=
  edges.map (fun e => (e, [nodePos e.1, nodePos e.2]))

/-- get_straight_edge_paths.  Self-loops are routed via _get_selfloop_path,
whose circle geometry lives in the missing _utils module and uses cos/sin, so
it is abstracted as the parameter slpath (position, radius, angle ↦ path);
selfloop_radius and selfloop_angle are taken as already-normalised scalars
(_normalize_numeric_argument broadcasts a float to all self-loops).  The
returned Bool records whether a warning was emitted: this function contains
no warnings.warn call, so it is always false. -/
def get_straight_edge_paths (slpath : Q2 → ℚ → ℚ → List Q2)
    (edges : List Edge) (nodePos : ℕ → Q2)
    (selfloop_radius selfloop_angle : ℚ) : List (Edge × List Q2) × Bool :=
  let nonloops := edges.filter (fun e => decide (e.1 ≠ e.2))
  let nonloop_edge_paths := get_straight_nonloop_edge_paths nonloops nodePos
  let selfloops := edges.filter (fun e => decide (e.1 = e.2))
  let selfloop_edge_paths :=
    selfloops.map (fun e => (e, slpath (nodePos e.1) selfloop_radius selfloop_angle))
  (nonloop_edge_paths ++ selfloop_edge_paths, false)

/-
Curved edge routing: control-point seeding.
-/

/-- Modelled from the spec: _get_orthogonal_unit_vector lives in the missing
netgraph/_utils.py.  Per spec 4.3 the seeds are "offset laterally" for
unbundled bidirectional edges; the repository's own _shift_edge
(_edge_layout.py lines 861-872) realises the lateral direction as the
normalised rotation (x, y) ↦ (-y, x), which is followed here. -/
def get_orthogonal_unit_vector (sq : ℚ → ℚ) (v : Q2) : Q2 :=
  qscale (1 / sq (sqnorm v)) (-v.2, v.1)

/-- _initialize_nonloop_control_points: the number of control points of each
edge is min(max(int(10 * |target-source| / |scale|), 1), 5).  The opaque
uuid4() identifiers are represented by their count. -/
def init_nonloop_control_points (sq : ℚ → ℚ) (edges : List Edge)
    (nodePos : ℕ → Q2) (scale : Q2) : List (Edge × ℕ) :=
  edges.map (fun e =>
    let edge_length := sq (sqnorm (qsub (nodePos e.2) (nodePos e.1))) / sq (sqnorm scale)
    (e, (min (max (pyInt (edge_length * 10)) 1) 5).toNat))

/-- np.linspace(0, 1, m) (endpoint included; the source only uses m ≥ 3). -/
def linspace01 (m : ℕ) : List ℚ :=
  (List.range m).map (fun (i : ℕ) => (i : ℚ) / ((m : ℚ) - 1))

/-- _initialize_nonloop_control_point_positions: seeds are
fraction * delta + source for the interior linspace fractions; when parallel
edges are not bundled and the reverse edge exists, all seeds are shifted by
-offset with offset = 1e-3 * |delta| * orthogonal unit vector of delta. -/
def init_nonloop_control_point_positions (sq : ℚ → ℚ)
    (edge_to_control_points : List (Edge × ℕ)) (nodePos : ℕ → Q2)
    (bundle_parallel_edges : Bool) : List (Edge × List Q2) :=
  edge_to_control_points.map (fun en =>
    let e := en.1
    let delta := qsub (nodePos e.2) (nodePos e.1)
    let fraction := ((linspace01 (en.2 + 2)).drop 1).dropLast
    let positions := fraction.map (fun f => qadd (qscale f delta) (nodePos e.1))
    let positions :=
      if (!bundle_parallel_edges) && decide ((e.2, e.1) ∈ alKeys (edge_to_control_points.map (fun kv => (kv.1, ())))) then
        let offset := qscale ((1 / 1000) * sq (sqnorm delta)) (get_orthogonal_unit_vector sq delta)
        positions.map (fun p => qsub p offset)
      else positions
    (e, positions))

/-- _get_path_through_control_points: the path of an edge is the source
position, then the (optimised) control point positions, then the target
position. -/
def get_path_through_control_points (cp_positions : List (Edge × List Q2))
    (nodePos : ℕ → Q2) : List (Edge × List Q2) :=
  cp_positions.map (fun ev => (ev.1, nodePos ev.1.1 :: ev.2 ++ [nodePos ev.1.2]))

/-- Collinearity of p with the line through a and b (used to state that a
seeded control point lies on the straight line between the endpoints). -/
def onLine (a b p : Q2) : Prop :=
  (b.1 - a.1) * (p.2 - a.2) = (b.2 - a.2) * (p.1 - a.1)

instance (a b p : Q2) : Decidable (onLine a b p) := by
  unfold onLine; infer_instance

/-
Edge bundling (FDEB), from src/netgraph/_edge_layout.py.
-/

/-- The Segment class of _edge_layout.py (lines 647-654), fields as computed
by __init__.  Note midpoint is p0 * 0.5 * vector, an elementwise product
(the source text, kept verbatim here; see the C3 analysis). -/
structure Segment where
  p0 : Q2
  p1 : Q2
  vector : Q2
  length : ℚ
  unit_vector : Q2
  midpoint : Q2

/-- Segment.__init__(p0, p1).  unit_vector = vector / length uses total ℚ
division (numpy would produce nan for length 0; the checked variant below
makes that explicit). -/
def Segment.init (sq : ℚ → ℚ) (p0 p1 : Q2) : Segment :=
  let vector := qsub p1 p0
  let length := sq (sqnorm vector)
  { p0 := p0
    p1 := p1
    vector := vector
    length := length
    unit_vector := qscale (1 / length) vector
    midpoint := (p0.1 * (1 / 2) * vector.1, p0.2 * (1 / 2) * vector.2) }

/-- np.clip(x, lo, hi). -/
def npclip (x lo hi : ℚ) : ℚ := min (max x lo) hi

/-- Segment.get_orthogonal_projection_onto_segment:
p0 + t * vector with t = ((point - p0) . vector) / length**2. -/
def orthogonal_projection_onto_segment (S : Segment) (point : Q2) : Q2 :=
  qadd S.p0 (qscale (qdot (qsub point S.p0) S.vector / (S.length * S.length)) S.vector)

/-- _get_angle_compatibility: |clip(unit_P . unit_Q, -1, 1)|. -/
def get_angle_compatibility (P Q : Segment) : ℚ :=
  |npclip (qdot P.unit_vector Q.unit_vector) (-1) 1|

/-- _get_scale_compatibility: 2 / (avg/min + max/avg) with avg the mean length. -/
def get_scale_compatibility (P Q : Segment) : ℚ :=
  let avg := (1 / 2) * (P.length + Q.length)
  2 / (avg / min P.length Q.length + max P.length Q.length / avg)

/-- _get_position_compatibility: avg / (avg + |Q.midpoint - P.midpoint|). -/
def get_position_compatibility (sq : ℚ → ℚ) (P Q : Segment) : ℚ :=
  let avg := (1 / 2) * (P.length + Q.length)
  let distance_between_midpoints := sq (sqnorm (qsub Q.midpoint P.midpoint))
  avg / (avg + distance_between_midpoints)

/-- Modelled from the spec (4.4, factor 3): the position compatibility is
avg / (avg + distance between the geometric midpoints p0 + vector/2); stated
for comparison with the source's get_position_compatibility. -/
def position_compatibility_spec (sq : ℚ → ℚ) (P Q : Segment) : ℚ :=
  let avg := (1 / 2) * (P.length + Q.length)
  let midP := qadd P.p0 (qscale (1 / 2) P.vector)
  let midQ := qadd Q.p0 (qscale (1 / 2) Q.vector)
  avg / (avg + sq (sqnorm (qsub midQ midP)))

/-- _get_visibility: project Q's endpoints onto P's line, giving segment I;
visibility = max(1 - 2 |P.midpoint - I.midpoint| / I.length, 0). -/
def get_visibility (sq : ℚ → ℚ) (P Q : Segment) : ℚ :=
  let I0 := orthogonal_projection_onto_segment P Q.p0
  let I1 := orthogonal_projection_onto_segment P Q.p1
  let I := Segment.init sq I0 I1
  let distance_between_midpoints := sq (sqnorm (qsub P.midpoint I.midpoint))
  max (1 - 2 * distance_between_midpoints / I.length) 0

/-- _get_visibility_compatibility: min of the two directed visibilities. -/
def get_visibility_compatibility (sq : ℚ → ℚ) (P Q : Segment) : ℚ :=
  min (get_visibility sq P Q) (get_visibility sq Q P)

/-- The full compatibility score accumulated by _get_edge_compatibility for a
pair that passes every threshold: the product of the scale, position, angle
and visibility factors (in the source's multiplication order). -/
def edge_compatibility_product (sq : ℚ → ℚ) (P Q : Segment) : ℚ :=
  ((1 * get_scale_compatibility P Q
      * get_position_compatibility sq P Q)
      * get_angle_compatibility P Q)
      * get_visibility_compatibility sq P Q

/-- itertools.combinations(edges, 2), in order. -/
def pairsOf : List Edge → List (Edge × Edge)
  | [] => []
  | e :: rest => rest.map (fun f => (e, f)) ++ pairsOf rest

/-- _get_edge_compatibility: for every unordered pair, multiply the factors in
source order with early exit below the threshold, and record the flag saying
whether one chain must be reversed (closest-endpoint comparison). -/
def get_edge_compatibility (sq : ℚ → ℚ) (edges : List Edge) (nodePos : ℕ → Q2)
    (threshold : ℚ) : List (Edge × Edge × ℚ × Bool) :=
  (pairsOf edges).filterMap (fun pair =>
    let P := Segment.init sq (nodePos pair.1.1) (nodePos pair.1.2)
    let Q := Segment.init sq (nodePos pair.2.1) (nodePos pair.2.2)
    let c1 := 1 * get_scale_compatibility P Q
    if c1 < threshold then none else
    let c2 := c1 * get_position_compatibility sq P Q
    if c2 < threshold then none else
    let c3 := c2 * get_angle_compatibility P Q
    if c3 < threshold then none else
    let c4 := c3 * get_visibility_compatibility sq P Q
    if c4 < threshold then none else
    let reverse :=
      decide (min (sq (sqnorm (qsub P.p0 Q.p0))) (sq (sqnorm (qsub P.p1 Q.p1)))
        > min (sq (sqnorm (qsub P.p0 Q.p1))) (sq (sqnorm (qsub P.p1 Q.p0))))
    some (pair.1, pair.2, c4, reverse))

/-- _get_k: per-edge stiffness k / |target - source|. -/
def get_k (sq : ℚ → ℚ) (edges : List Edge) (nodePos : ℕ → Q2) (kk : ℚ) :
    List (Edge × ℚ) :=
  edges.map (fun e => (e, kk / sq (sqnorm (qsub (nodePos e.2) (nodePos e.1)))))

/-- _initialize_bundled_control_points: each edge starts as its two endpoint
positions. -/
def init_bundled_control_points (edges : List Edge) (nodePos : ℕ → Q2) :
    List (Edge × List Q2) :=
  edges.map (fun e => (e, [nodePos e.1, nodePos e.2]))

/-- _expand_control_points for one path: keep the old points at even indices
and insert the pairwise midpoint 0.5 * (p2 - p1) + p1 at odd indices. -/
def expand_path : List Q2 → List Q2
  | [] => []
  | [p] => [p]
  | p :: q :: rest => p :: qadd (qscale (1 / 2) (qsub q p)) p :: expand_path (q :: rest)

/-- _expand_control_points over the whole dict. -/
def expand_control_points (cps : List (Edge × List Q2)) : List (Edge × List Q2) :=
  cps.map (fun ev => (ev.1, expand_path ev.2))

/-- The interior spring deltas of _get_Fs: delta[i] = p[i-1] + p[i+1] - 2 p[i]
for interior i and 0 at both endpoints. -/
def spring_delta (pts : List Q2) : List Q2 :=
  (List.range pts.length).map (fun i =>
    if i = 0 ∨ i = pts.length - 1 then (0, 0)
    else qsub (qadd (posD pts (i - 1)) (posD pts (i + 1)))
          (qadd (posD pts i) (posD pts i)))

/-- _get_Fs: spring force kp * delta with kp = k[edge] / (len(points) - 1). -/
def get_Fs (cps : List (Edge × List Q2)) (edge_to_k : List (Edge × ℚ)) :
    List (Edge × List Q2) :=
  cps.map (fun ev =>
    let kp := alGet edge_to_k ev.1 0 / ((ev.2.length : ℚ) - 1)
    (ev.1, (spring_delta ev.2).map (fun d => qscale kp d)))

/-- Electrostatic displacement of _get_Fe for one compatible pair:
delta = Q' - P pointwise, displacement = compatibility * delta / |delta|²,
zeroed at the first and last control point. -/
def fe_displacement (compatibility : ℚ) (P Qd : List Q2) : List Q2 :=
  let delta := List.zipWith qsub Qd P
  let disp := delta.map (fun d => qscale (compatibility / (d.1 * d.1 + d.2 * d.2)) d)
  (List.range disp.length).map (fun i =>
    if i = 0 ∨ i = disp.length - 1 then (0, 0) else posD disp i)

/-- _get_Fe: accumulate the electrostatic displacements of every compatible
pair into the force dict (out[e1] += displacement; out[e2] -= displacement,
reversed again when the pair is flagged reversed). -/
def get_Fe (cps : List (Edge × List Q2))
    (compat : List (Edge × Edge × ℚ × Bool))
    (out : List (Edge × List Q2)) : List (Edge × List Q2) :=
  compat.foldl
    (fun out item =>
      let e1 := item.1
      let e2 := item.2.1
      let c := item.2.2.1
      let reverse := item.2.2.2
      let P := alGet cps e1 []
      let Q := alGet cps e2 []
      let disp := fe_displacement c P (if reverse then Q.reverse else Q)
      let out := alUpd out e1 (fun v => List.zipWith qadd v disp)
      alUpd out e2 (fun v => List.zipWith qsub v (if reverse then disp.reverse else disp)))
    out

/-- Frobenius squared norm of a whole displacement array
(np.linalg.norm without an axis flattens the array). -/
def frobSq (pts : List Q2) : ℚ := (pts.map sqnorm).foldl (· + ·) 0

/-- _update_control_point_positions: per edge, the net displacement array is
divided by its Frobenius norm clipped below at 1e-12 and multiplied by that
norm clipped above at the step size, then added to the control points. -/
def update_control_point_positions (sq : ℚ → ℚ) (cps : List (Edge × List Q2))
    (F : List (Edge × List Q2)) (step_size : ℚ) : List (Edge × List Q2) :=
  F.foldl
    (fun cps ev =>
      let displacement_length := max (sq (frobSq ev.2)) (1 / 10 ^ 12)
      let disp := ev.2.map (fun d => qscale (min displacement_length step_size / displacement_length) d)
      alUpd cps ev.1 (fun pts => List.zipWith qadd pts disp))
    cps

/-- The inner force-update iterations of one bundling cycle. -/
def bundle_inner (sq : ℚ → ℚ) (compat : List (Edge × Edge × ℚ × Bool))
    (edge_to_k : List (Edge × ℚ)) (step_size : ℚ) :
    ℕ → List (Edge × List Q2) → List (Edge × List Q2)
  | 0, cps => cps
  | n + 1, cps =>
      let F := get_Fs cps edge_to_k
      let F := get_Fe cps compat F
      bundle_inner sq compat edge_to_k step_size n
        (update_control_point_positions sq cps F step_size)

/-- The cycle loop of get_bundled_edge_paths: expand, iterate, then halve the
step size and reduce the iteration count to 2/3 (int(2/3 * n) is modelled as
2*n/3 in ℕ; float truncation can differ by one at exact multiples of 3, which
no settled claim depends on). -/
def bundle_cycles (sq : ℚ → ℚ) (compat : List (Edge × Edge × ℚ × Bool))
    (edge_to_k : List (Edge × ℚ)) :
    ℕ → ℕ → ℚ → List (Edge × List Q2) → List (Edge × List Q2)
  | 0, _, _, cps => cps
  | c + 1, iters, step_size, cps =>
      bundle_cycles sq compat edge_to_k c (2 * iters / 3) (step_size / 2)
        (bundle_inner sq compat edge_to_k step_size iters (expand_control_points cps))

/-- _straighten_path: blend with the straight line between the endpoints. -/
def straighten_path (pts : List Q2) (straighten_by : ℚ) : List Q2 :=
  let p0 := pts.headD (0, 0)
  let p1 := pts.getLastD (0, 0)
  (List.range pts.length).map (fun i =>
    qadd (qscale (1 - straighten_by) (posD pts i))
      (qscale straighten_by
        (qadd p0 (qscale ((i : ℚ) / ((pts.length : ℚ) - 1)) (qsub p1 p0)))))

/-- _straighten_edges. -/
def straighten_edges (cps : List (Edge × List Q2)) (straighten_by : ℚ) :
    List (Edge × List Q2) :=
  cps.map (fun ev => (ev.1, straighten_path ev.2 straighten_by))

/-- The set-based collapse of bidirectional pairs in get_bundled_edge_paths:
an edge is kept unless its reverse was already kept (the Python set is
modelled as an insertion-ordered duplicate-free list). -/
def collapse_bidirectional : List Edge → List Edge → List Edge
  | acc, [] => acc
  | acc, e :: rest =>
      if (e.2, e.1) ∈ acc then collapse_bidirectional acc rest
      else if e ∈ acc then collapse_bidirectional acc rest
      else collapse_bidirectional (acc ++ [e]) rest

/-- get_bundled_edge_paths (the layout function proper; the
_handle_multiple_components wrapper partitions the edges by connected
component and unions the per-component results).  The final spline smoothing
_smooth_path calls scipy's UnivariateSpline, an external numerical routine,
kept abstract as the parameter smoother.  The returned Bool records whether
the self-loop warning was emitted. -/
def get_bundled_edge_paths (sq : ℚ → ℚ) (smoother : List Q2 → List Q2)
    (edges : List Edge) (nodePos : ℕ → Q2)
    (kk compatibility_threshold : ℚ) (total_cycles total_iterations : ℕ)
    (step_size straighten_by : ℚ) : List (Edge × List Q2) × Bool :=
  let warn := edges.any (fun e => e.1 = e.2)
  let edges1 := if warn then edges.filter (fun e => decide (e.1 ≠ e.2)) else edges
  let unidirectional_edges := collapse_bidirectional [] edges1
  let reverse_edges := edges1.dedup.filter (fun e => decide (e ∉ unidirectional_edges))
  let edge_to_k := get_k sq unidirectional_edges nodePos kk
  let edge_compatibility :=
    get_edge_compatibility sq unidirectional_edges nodePos compatibility_threshold
  let cps := init_bundled_control_points unidirectional_edges nodePos
  let cps := bundle_cycles sq edge_compatibility edge_to_k
    total_cycles total_iterations step_size cps
  let cps := if 0 < straighten_by then straighten_edges cps straighten_by else cps
  let cps := cps.map (fun ev => (ev.1, smoother ev.2))
  let cps := reverse_edges.foldl
    (fun cps e => cps ++ [(e, (alGet cps (e.2, e.1) []).reverse)]) cps
  (cps, warn)

/-
Checked variants making the division structure of the bundling code explicit:
qdivChecked returns none exactly when the Python/numpy division has a zero
divisor (nan/inf there, never a floor or clamp).
-/

def qdivChecked (a b : ℚ) : Option ℚ := if b = 0 then none else some (a / b)

/-- Elementwise traversal over Option (the checked analogue of a vectorised
numpy operation over an array). -/
def mapOption (f : Q2 → Option Q2) : List Q2 → Option (List Q2)
  | [] => some []
  | x :: xs =>
    match f x, mapOption f xs with
    | some y, some ys => some (y :: ys)
    | _, _ => none

/-- Segment.__init__ with the unit_vector division checked: fails on
coincident endpoints (length 0 under an exact sq). -/
def Segment.initChecked (sq : ℚ → ℚ) (p0 p1 : Q2) : Option Segment :=
  let vector := qsub p1 p0
  let length := sq (sqnorm vector)
  match qdivChecked vector.1 length, qdivChecked vector.2 length with
  | some ux, some uy =>
      some { p0 := p0, p1 := p1, vector := vector, length := length,
             unit_vector := (ux, uy),
             midpoint := (p0.1 * (1 / 2) * vector.1, p0.2 * (1 / 2) * vector.2) }
  | _, _ => none

/-- _get_visibility with every division checked: the projection divides by
length**2 and the visibility by I.length, both without any floor. -/
def get_visibility_checked (sq : ℚ → ℚ) (P Q : Segment) : Option ℚ :=
  match qdivChecked (qdot (qsub Q.p0 P.p0) P.vector) (P.length * P.length),
        qdivChecked (qdot (qsub Q.p1 P.p0) P.vector) (P.length * P.length) with
  | some t0, some t1 =>
      let I0 := qadd P.p0 (qscale t0 P.vector)
      let I1 := qadd P.p0 (qscale t1 P.vector)
      match Segment.initChecked sq I0 I1 with
      | some I =>
          match qdivChecked (2 * sq (sqnorm (qsub P.midpoint I.midpoint))) I.length with
          | some r => some (max (1 - r) 0)
          | none => none
      | none => none
  | _, _ => none

/-- One loop body of _update_control_point_positions with the division
checked: displacement_length = clip(norm(displacement), 1e-12, None);
displacement = displacement / displacement_length * clip(displacement_length,
None, step_size); the control points of the edge are moved by it. -/
def update_one_checked (sq : ℚ → ℚ) (step_size : ℚ)
    (cps : List (Edge × List Q2)) (ev : Edge × List Q2) :
    Option (List (Edge × List Q2)) :=
  let displacement_length := max (sq (frobSq ev.2)) (1 / 10 ^ 12)
  match (mapOption (fun d =>
      match qdivChecked d.1 displacement_length,
            qdivChecked d.2 displacement_length with
      | some x, some y =>
          some (qscale (min displacement_length step_size) (x, y))
      | _, _ => none) ev.2) with
  | some disp => some (alUpd cps ev.1 (fun pts => List.zipWith qadd pts disp))
  | none => none

/-- _update_control_point_positions with the division checked: the divisor is
the Frobenius norm clipped below at 1e-12, so the division is protected
(a failing division anywhere in the loop would propagate, like the numpy
error it represents). -/
def update_control_point_positions_checked (sq : ℚ → ℚ)
    (cps : List (Edge × List Q2)) (F : List (Edge × List Q2)) (step_size : ℚ) :
    Option (List (Edge × List Q2)) :=
  F.foldl
    (fun ocps ev => ocps.bind (fun cps => update_one_checked sq step_size cps ev))
    (some cps)

/-
Theorems.  Helper lemmas first, then one theorem per claim (with witnesses
for theorems that carry hypotheses).
-/

theorem qadd_zero_vec (p : Q2) : qadd p 0 = p := by
  cases p; simp [qadd]

theorem qscale_zero_vec (c : ℚ) : qscale c (0 : Q2) = 0 := by
  simp [qscale]

theorem fr_scaled_step_zero (sq : ℚ → ℚ) (t : ℚ) :
    fr_scaled_step sq t (0 : Q2) = 0 := by
  rw [fr_scaled_step, qscale_zero_vec]

theorem sqnorm_qscale (c : ℚ) (v : Q2) : sqnorm (qscale c v) = c * c * sqnorm v := by
  simp [sqnorm, qscale]; ring

theorem sqnorm_qsub_comm (a b : Q2) : sqnorm (qsub a b) = sqnorm (qsub b a) := by
  simp [sqnorm, qsub]; ring

theorem qdot_comm (a b : Q2) : qdot a b = qdot b a := by
  simp [qdot]; ring

theorem mapIdxFrom_getElem? (f : ℕ → Q2 → Q2) :
    ∀ (l : List Q2) (n i : ℕ), (mapIdxFrom f n l)[i]? = (l[i]?).map (f (n + i))
  | [], _, _ => by simp [mapIdxFrom]
  | p :: rest, n, 0 => by simp [mapIdxFrom]
  | p :: rest, n, i + 1 => by
      have h := mapIdxFrom_getElem? f rest (n + 1) i
      simp only [mapIdxFrom, List.getElem?_cons_succ, h]
      have : n + 1 + i = n + (i + 1) := by omega
      rw [this]

theorem mapIdxFrom_length (f : ℕ → Q2 → Q2) :
    ∀ (n : ℕ) (l : List Q2), (mapIdxFrom f n l).length = l.length
  | _, [] => rfl
  | n, p :: rest => by simp [mapIdxFrom, mapIdxFrom_length f (n + 1) rest]

theorem sparse_step_eq_dense_step (sq : ℚ → ℚ) (A : ℕ → ℕ → ℚ) (kk : ℚ)
    (fixed : List ℕ) (t : ℚ) (pos : List Q2) :
    sparse_step sq A kk fixed t pos = dense_step sq A kk fixed t pos := by
  unfold sparse_step dense_step
  have hcong : ∀ (f g : ℕ → Q2 → Q2), (∀ i p, f i p = g i p) →
      ∀ (n : ℕ) (l : List Q2), mapIdxFrom f n l = mapIdxFrom g n l := by
    intro f g hfg n l
    induction l generalizing n with
    | nil => rfl
    | cons p rest ih => simp [mapIdxFrom, hfg, ih]
  apply hcong
  intro i p
  by_cases hi : i ∈ fixed
  · simp [sparse_displacement, hi, fr_scaled_step_zero]
  · simp [sparse_displacement, hi]

theorem sparse_loop_eq_dense_loop (sq : ℚ → ℚ) (A : ℕ → ℕ → ℚ) (kk : ℚ)
    (fixed : List ℕ) (dt : ℚ) :
    ∀ (n : ℕ) (t : ℚ) (pos : List Q2),
      sparse_loop sq A kk fixed dt n t pos = dense_loop sq A kk fixed dt n t pos
  | 0, _, _ => rfl
  | n + 1, t, pos => by
      rw [sparse_loop, dense_loop, sparse_step_eq_dense_step,
        sparse_loop_eq_dense_loop sq A kk fixed dt n]

theorem dense_step_fixed (sq : ℚ → ℚ) (A : ℕ → ℕ → ℚ) (kk : ℚ) (fixed : List ℕ)
    (t : ℚ) (pos : List Q2) (i : ℕ) (hi : i ∈ fixed) :
    (dense_step sq A kk fixed t pos)[i]? = pos[i]? := by
  rw [dense_step, mapIdxFrom_getElem?]
  cases h : pos[i]? with
  | none => rfl
  | some p => simp [hi, qadd_zero_vec]

theorem dense_loop_fixed (sq : ℚ → ℚ) (A : ℕ → ℕ → ℚ) (kk : ℚ) (fixed : List ℕ)
    (dt : ℚ) (i : ℕ) (hi : i ∈ fixed) :
    ∀ (n : ℕ) (t : ℚ) (pos : List Q2), (dense_loop sq A kk fixed dt n t pos)[i]? = pos[i]?
  | 0, _, _ => rfl
  | n + 1, t, pos => by
      rw [dense_loop, dense_loop_fixed sq A kk fixed dt i hi n,
        dense_step_fixed sq A kk fixed t pos i hi]

/-- C3: the claim states that the position-compatibility factor is
avg / (avg + d) with d the distance between the geometric midpoints of the
two segments.  The code computes Segment.midpoint as p0 * 0.5 * vector, an
elementwise product instead of p0 + 0.5 * vector, contradicting the class's
own field name and the function's docstring ("high if the distance between
their midpoints is small").  At the parallel horizontal segments
(0,0)-(2,0) and (0,1)-(2,1) both computed "midpoints" collapse to (0,0), so
the code returns 1 while the documented formula gives 2/3 (geometric
midpoints (1,0) and (1,1) are at distance 1, avg = 2). -/
theorem position_compatibility_bug_eval :
    get_position_compatibility (sqrtTable [0, 1, 2])
        (Segment.init (sqrtTable [0, 1, 2]) (0, 0) (2, 0))
        (Segment.init (sqrtTable [0, 1, 2]) (0, 1) (2, 1)) = 1
    ∧ position_compatibility_spec (sqrtTable [0, 1, 2])
        (Segment.init (sqrtTable [0, 1, 2]) (0, 0) (2, 0))
        (Segment.init (sqrtTable [0, 1, 2]) (0, 1) (2, 1)) = 2 / 3 := by
  constructor <;>
    norm_num [get_position_compatibility, position_compatibility_spec,
      Segment.init, sqrtTable, sqnorm, qsub, qadd, qscale]

theorem get_angle_compatibility_comm (P Q : Segment) :
    get_angle_compatibility P Q = get_angle_compatibility Q P := by
  unfold get_angle_compatibility
  rw [qdot_comm]

theorem get_scale_compatibility_comm (P Q : Segment) :
    get_scale_compatibility P Q = get_scale_compatibility Q P := by
  unfold get_scale_compatibility
  rw [min_comm, max_comm, add_comm P.length Q.length]

theorem get_position_compatibility_comm (sq : ℚ → ℚ) (P Q : Segment) :
    get_position_compatibility sq P Q = get_position_compatibility sq Q P := by
  unfold get_position_compatibility
  rw [add_comm P.length Q.length, sqnorm_qsub_comm]

theorem get_visibility_compatibility_comm (sq : ℚ → ℚ) (P Q : Segment) :
    get_visibility_compatibility sq P Q = get_visibility_compatibility sq Q P := by
  unfold get_visibility_compatibility
  rw [min_comm]

/-- C4: the bundling compatibility score is symmetric: the product of the
angle, scale, position and visibility factors accumulated by
_get_edge_compatibility takes the same value on (P, Q) and (Q, P), for every
sqrt realisation and arbitrary segments (in particular for the
distinct-endpoint segments of any two edges). -/
theorem edge_compatibility_symmetric (sq : ℚ → ℚ) (P Q : Segment) :
    edge_compatibility_product sq P Q = edge_compatibility_product sq Q P := by
  unfold edge_compatibility_product
  rw [get_angle_compatibility_comm, get_scale_compatibility_comm,
    get_position_compatibility_comm, get_visibility_compatibility_comm]

theorem mapOption_isSome (f : Q2 → Option Q2) (h : ∀ x, (f x).isSome = true) :
    ∀ l : List Q2, (mapOption f l).isSome = true
  | [] => rfl
  | x :: xs => by
      have hx := h x
      have hxs := mapOption_isSome f h xs
      rw [mapOption]
      cases hfx : f x with
      | none => rw [hfx] at hx; simp at hx
      | some y =>
          cases hmap : mapOption f xs with
          | none => rw [hmap] at hxs; simp at hxs
          | some ys => simp

/-- qdivChecked succeeds exactly on nonzero divisors. -/
theorem qdivChecked_some (a b : ℚ) (hb : b ≠ 0) : qdivChecked a b = some (a / b) := by
  simp [qdivChecked, hb]

theorem update_one_checked_isSome (sq : ℚ → ℚ) (step_size : ℚ)
    (cps : List (Edge × List Q2)) (ev : Edge × List Q2) :
    (update_one_checked sq step_size cps ev).isSome = true := by
  unfold update_one_checked
  have hne : max (sq (frobSq ev.2)) (1 / 10 ^ 12) ≠ 0 := by
    have h12 : (0 : ℚ) < 1 / 10 ^ 12 := by norm_num
    have hle := le_max_right (sq (frobSq ev.2)) ((1 : ℚ) / 10 ^ 12)
    exact ne_of_gt (lt_of_lt_of_le h12 hle)
  have hmap := mapOption_isSome
    (fun d =>
      match qdivChecked d.1 (max (sq (frobSq ev.2)) (1 / 10 ^ 12)),
            qdivChecked d.2 (max (sq (frobSq ev.2)) (1 / 10 ^ 12)) with
      | some x, some y =>
          some (qscale (min (max (sq (frobSq ev.2)) (1 / 10 ^ 12)) step_size) (x, y))
      | _, _ => none)
    (by
      intro x
      simp only [qdivChecked_some x.1 _ hne, qdivChecked_some x.2 _ hne]
      simp)
    ev.2
  simp only []
  cases hm : mapOption (fun d =>
      match qdivChecked d.1 (max (sq (frobSq ev.2)) (1 / 10 ^ 12)),
            qdivChecked d.2 (max (sq (frobSq ev.2)) (1 / 10 ^ 12)) with
      | some x, some y =>
          some (qscale (min (max (sq (frobSq ev.2)) (1 / 10 ^ 12)) step_size) (x, y))
      | _, _ => none) ev.2 with
  | none => rw [hm] at hmap; simp at hmap
  | some disp => simp

/-- C9 (amended): the control-point position update clamps its divisor (the
Frobenius norm of the per-edge displacement array) below at 1e-12, so its
division can never hit a zero divisor, for every input and every sqrt
realisation; the unprotected divisions of the compatibility scoring are the
subject of the accompanying counterexample. -/
theorem clamped_update_never_divides_by_zero (sq : ℚ → ℚ)
    (cps F : List (Edge × List Q2)) (step_size : ℚ) :
    (update_control_point_positions_checked sq cps F step_size).isSome = true := by
  unfold update_control_point_positions_checked
  have main : ∀ (F : List (Edge × List Q2)) (acc : Option (List (Edge × List Q2))),
      acc.isSome = true →
      (F.foldl (fun ocps ev => ocps.bind (fun cps => update_one_checked sq step_size cps ev))
        acc).isSome = true := by
    intro F
    induction F with
    | nil => intro acc hacc; simpa using hacc
    | cons ev rest ih =>
        intro acc hacc
        rw [List.foldl_cons]
        apply ih
        cases acc with
        | none => simp at hacc
        | some cps => simpa using update_one_checked_isSome sq step_size cps ev
  exact main F (some cps) rfl

/-- C9 (counterexample): the claim says every division over zero-length
vectors, coincident points or zero-length projected intervals is protected
by a floor or clamp.  It is not: Segment.__init__ divides the vector by its
length with no floor and fails on coincident endpoints, and _get_visibility
divides by the projected interval's length with no floor and fails when the
projected interval degenerates to a point (orthogonal segments).  Both
checked evaluations below return none (a zero divisor was reached), while
the two outer segments themselves are well formed. -/
theorem unprotected_degenerate_divisions :
    Segment.initChecked (sqrtTable [0, 1]) (0, 0) (0, 0) = none
    ∧ (Segment.initChecked (sqrtTable [0, 1]) (0, 0) (1, 0)).isSome = true
    ∧ (Segment.initChecked (sqrtTable [0, 1]) (1 / 2, 1) (1 / 2, 2)).isSome = true
    ∧ ((Segment.initChecked (sqrtTable [0, 1]) (0, 0) (1, 0)).bind (fun P =>
        (Segment.initChecked (sqrtTable [0, 1]) (1 / 2, 1) (1 / 2, 2)).bind (fun Q =>
          get_visibility_checked (sqrtTable [0, 1]) P Q))) = none := by
  refine ⟨?_, ?_, ?_, ?_⟩ <;>
    norm_num [Segment.initChecked, get_visibility_checked, qdivChecked,
      sqrtTable, sqnorm, qsub, qadd, qscale, qdot, Option.bind]

/-- C10: in each iteration of the dense solver a non-fixed node i is moved by
fr_scaled_step applied to its net force d; writing L for the computed norm of
d (sq of the squared norm, with L * L = |d|² when sq is exact there), the
squared length of the move equals t² when L ≥ 0.01 — i.e. the step is
normalised to length t regardless of the force magnitude — and equals
(t L / 0.1)² when L < 0.01; and the sparse solver's iteration is literally
the same update (sparse_step = dense_step). -/
theorem displacement_normalization_rule (sq : ℚ → ℚ) (A : ℕ → ℕ → ℚ) (kk : ℚ)
    (fixed : List ℕ) (t : ℚ) (pos : List Q2) (i : ℕ) (d : Q2) (L : ℚ)
    (hd : d = dense_displacement sq A kk pos i)
    (hL : L = sq (sqnorm d))
    (hexact : L * L = sqnorm d)
    (hi : i ∉ fixed) :
    (dense_step sq A kk fixed t pos)[i]? =
      (pos[i]?).map (fun p => qadd p (fr_scaled_step sq t d))
    ∧ (1 / 100 ≤ L → sqnorm (fr_scaled_step sq t d) = t * t)
    ∧ (L < 1 / 100 → sqnorm (fr_scaled_step sq t d) = (t * L / (1 / 10)) * (t * L / (1 / 10)))
    ∧ sparse_step sq A kk fixed t pos = dense_step sq A kk fixed t pos := by
  refine ⟨?_, ?_, ?_, sparse_step_eq_dense_step sq A kk fixed t pos⟩
  · rw [dense_step, mapIdxFrom_getElem?]
    cases h : pos[i]? with
    | none => rfl
    | some p => simp [hi, ← hd]
  · intro h
    have hL0 : L ≠ 0 := by
      have : (0 : ℚ) < L := lt_of_lt_of_le (by norm_num) h
      exact ne_of_gt this
    rw [fr_scaled_step]
    simp only [← hL]
    rw [if_neg (not_lt.mpr h), sqnorm_qscale, ← hexact]
    field_simp
  · intro h
    rw [fr_scaled_step]
    simp only [← hL]
    rw [if_pos h, sqnorm_qscale, ← hexact]
    ring

/-- C10 (witness): at nodes (0,0) and (3,4) with a unit-weight edge 0→1,
k = 1, the net force on node 1 is (3/25, 4/25) with norm 1/5 ≥ 0.01, and its
step at temperature t = 2/5 has squared length t². -/
theorem displacement_normalization_rule_witness :
    (1 / 100 : ℚ) ≤ 1 / 5
    ∧ sqnorm (fr_scaled_step (sqrtTable [0, 5, 1/5]) (2/5) (3/25, 4/25)) = (2/5) * (2/5) := by
  refine ⟨by norm_num, ?_⟩
  have hd : ((3/25 : ℚ), (4/25 : ℚ)) = dense_displacement (sqrtTable [0, 5, 1/5])
      (fun i j => if i = 0 ∧ j = 1 then 1 else 0) 1 [(0,0),(3,4)] 1 := by
    norm_num [dense_displacement, posD, qadd, qsub, qscale, sqnorm, sqrtTable,
      List.range_succ, max_def, Prod.ext_iff]
  have hL : (1/5 : ℚ) = sqrtTable [0, 5, 1/5] (sqnorm ((3/25 : ℚ), (4/25 : ℚ))) := by
    norm_num [sqnorm, sqrtTable]
  have hexact : (1/5 : ℚ) * (1/5) = sqnorm ((3/25 : ℚ), (4/25 : ℚ)) := by
    norm_num [sqnorm]
  have hi : (1 : ℕ) ∉ ([0] : List ℕ) := by simp
  exact (displacement_normalization_rule (sqrtTable [0, 5, 1/5])
    (fun i j => if i = 0 ∧ j = 1 then 1 else 0) 1 [0] (2/5) [(0,0),(3,4)] 1
    ((3/25 : ℚ), (4/25 : ℚ)) (1/5) hd hL hexact hi).2.1 (by norm_num)

/-- C6: a node listed in the fixed set keeps exactly its input position:
both solvers leave fixed rows untouched on every iteration (for any inputs
and iteration count), and when a fixed set is supplied the layout function
returns the raw solver output — no rescaling or recentering is applied. -/
theorem fixed_nodes_exact (sq : ℚ → ℚ) (A : ℕ → ℕ → ℚ) (kk : ℚ) (pos : List Q2)
    (fs : List ℕ) (iterations : ℕ) (scale : ℚ) (center : Q2) (i : ℕ) (hi : i ∈ fs) :
    (dense_fruchterman_reingold sq A kk pos fs iterations)[i]? = pos[i]?
    ∧ (sparse_fruchterman_reingold sq A kk pos fs iterations)[i]? = pos[i]?
    ∧ fruchterman_reingold_layout sq A kk pos (some fs) iterations scale center
        = node_layout_core sq A kk pos fs iterations
    ∧ (fruchterman_reingold_layout sq A kk pos (some fs) iterations scale center)[i]?
        = pos[i]? := by
  have hdense : (dense_fruchterman_reingold sq A kk pos fs iterations)[i]? = pos[i]? := by
    simp only [dense_fruchterman_reingold]
    exact dense_loop_fixed sq A kk fs _ i hi iterations _ pos
  have hsparse : (sparse_fruchterman_reingold sq A kk pos fs iterations)[i]? = pos[i]? := by
    simp only [sparse_fruchterman_reingold]
    rw [sparse_loop_eq_dense_loop]
    exact dense_loop_fixed sq A kk fs _ i hi iterations _ pos
  have hlayout : fruchterman_reingold_layout sq A kk pos (some fs) iterations scale center
      = node_layout_core sq A kk pos fs iterations := rfl
  refine ⟨hdense, hsparse, hlayout, ?_⟩
  rw [hlayout]
  unfold node_layout_core
  by_cases h5 : 500 < pos.length
  · rw [if_pos h5]; exact hsparse
  · rw [if_neg h5]; exact hdense

/-- C6 (witness): node 0 is fixed at (0,0) among [(0,0),(3,4)]; after one
dense iteration its row is still exactly (0,0). -/
theorem fixed_nodes_exact_witness :
    (0 : ℕ) ∈ ([0] : List ℕ)
    ∧ (dense_fruchterman_reingold (sqrtTable [0, 5, 1/5])
        (fun i j => if i = 0 ∧ j = 1 then 1 else 0) 1 [(0,0),(3,4)] [0] 1)[0]?
        = some ((0 : ℚ), (0 : ℚ)) := by
  refine ⟨by simp, ?_⟩
  rw [(fixed_nodes_exact (sqrtTable [0, 5, 1/5])
    (fun i j => if i = 0 ∧ j = 1 then 1 else 0) 1 [(0,0),(3,4)] [0] 1 1 (0,0) 0
    (by simp)).1]
  rfl

/-- C2 (amended): the two solvers implement the same per-iteration update, so
they produce identical outputs whenever their initial temperatures coincide —
exactly when the larger coordinate span of the initial positions is 1 (the
dense solver starts at 0.1 × span, the sparse solver at the constant 0.1);
for spans other than 1 the outputs genuinely differ (see the
counterexample). -/
theorem dense_sparse_agree_when_span_is_one (sq : ℚ → ℚ) (A : ℕ → ℕ → ℚ) (kk : ℚ)
    (pos : List Q2) (fixed : List ℕ) (iterations : ℕ)
    (h : max (listMax (pos.map Prod.fst) - listMin (pos.map Prod.fst))
          (listMax (pos.map Prod.snd) - listMin (pos.map Prod.snd)) = 1) :
    dense_fruchterman_reingold sq A kk pos fixed iterations
      = sparse_fruchterman_reingold sq A kk pos fixed iterations := by
  simp only [dense_fruchterman_reingold, sparse_fruchterman_reingold]
  rw [h, one_mul]
  exact (sparse_loop_eq_dense_loop sq A kk fixed _ iterations _ pos).symm

/-- C2 (amended, witness): initial positions (0,0), (1,1) have span 1 on both
axes, so the two solvers agree there. -/
theorem dense_sparse_agree_when_span_is_one_witness :
    max (listMax (([(0,0),(1,1)] : List Q2).map Prod.fst)
          - listMin (([(0,0),(1,1)] : List Q2).map Prod.fst))
        (listMax (([(0,0),(1,1)] : List Q2).map Prod.snd)
          - listMin (([(0,0),(1,1)] : List Q2).map Prod.snd)) = 1
    ∧ dense_fruchterman_reingold (sqrtTable []) (fun _ _ => 0) 1 [(0,0),(1,1)] [] 1
        = sparse_fruchterman_reingold (sqrtTable []) (fun _ _ => 0) 1 [(0,0),(1,1)] [] 1 := by
  have h : max (listMax (([(0,0),(1,1)] : List Q2).map Prod.fst)
          - listMin (([(0,0),(1,1)] : List Q2).map Prod.fst))
        (listMax (([(0,0),(1,1)] : List Q2).map Prod.snd)
          - listMin (([(0,0),(1,1)] : List Q2).map Prod.snd)) = 1 := by
    norm_num [listMax, listMin, max_def, min_def]
  exact ⟨h, dense_sparse_agree_when_span_is_one (sqrtTable []) (fun _ _ => 0) 1
    [(0,0),(1,1)] [] 1 h⟩

/-- C2 (counterexample): same edge list (a unit-weight edge 0→1), same
initial positions (0,0), (3,4), no fixed nodes, k = 1, one iteration, and an
exact square root on every norm that arises — yet the dense solver (initial
temperature 0.1 × span = 0.4) moves node 0 to (6/25, 8/25) while the sparse
solver (initial temperature 0.1) moves it to (3/50, 2/25): the x components
alone differ by 9/50 = 0.18, far beyond numerical tolerance. -/
theorem dense_sparse_solvers_differ :
    dense_fruchterman_reingold (sqrtTable [0, 5, 124/5, 1/5])
        (fun i j => if i = 0 ∧ j = 1 then 1 else 0) 1 [(0,0),(3,4)] [] 1
      = [(6/25, 8/25), (81/25, 108/25)]
    ∧ sparse_fruchterman_reingold (sqrtTable [0, 5, 124/5, 1/5])
        (fun i j => if i = 0 ∧ j = 1 then 1 else 0) 1 [(0,0),(3,4)] [] 1
      = [(3/50, 2/25), (153/50, 102/25)]
    ∧ (6/25 : ℚ) - 3/50 = 9/50 := by
  refine ⟨?_, ?_, by norm_num⟩ <;>
    norm_num [dense_fruchterman_reingold, sparse_fruchterman_reingold, dense_loop,
      sparse_loop, dense_step, sparse_step, dense_displacement, sparse_displacement,
      fr_scaled_step, mapIdxFrom, posD, listMax, listMin, qadd, qsub, qscale, sqnorm,
      sqrtTable, List.range_succ, max_def, min_def, Prod.ext_iff]

theorem foldl_max_le_self : ∀ (xs : List ℚ) (a : ℚ), a ≤ xs.foldl max a
  | [], a => le_refl a
  | x :: xs, a => le_trans (le_max_left a x) (foldl_max_le_self xs (max a x))

theorem le_foldl_max : ∀ (xs : List ℚ) (a x : ℚ), x ∈ xs → x ≤ xs.foldl max a
  | [], _, _, h => absurd h (List.not_mem_nil _)
  | y :: ys, a, x, h => by
      rcases List.mem_cons.mp h with h1 | h2
      · subst h1
        exact le_trans (le_max_right a x) (foldl_max_le_self ys (max a x))
      · exact le_foldl_max ys (max a y) x h2

theorem foldl_max_mem : ∀ (xs : List ℚ) (a : ℚ), xs.foldl max a = a ∨ xs.foldl max a ∈ xs
  | [], a => Or.inl rfl
  | x :: xs, a => by
      have h0 : (x :: xs).foldl max a = xs.foldl max (max a x) := rfl
      rcases foldl_max_mem xs (max a x) with h | h
      · rcases max_choice a x with h1 | h1
        · exact Or.inl (by rw [h0, h, h1])
        · refine Or.inr ?_
          rw [h0, h, h1]
          exact List.mem_cons_self x xs
      · refine Or.inr ?_
        rw [h0]
        exact List.mem_cons_of_mem x h

theorem le_listMax (l : List ℚ) (x : ℚ) (h : x ∈ l) : x ≤ listMax l := by
  cases l with
  | nil => exact absurd h (List.not_mem_nil x)
  | cons y ys =>
      rcases List.mem_cons.mp h with h1 | h2
      · subst h1; exact foldl_max_le_self ys x
      · exact le_foldl_max ys y x h2

theorem listMax_mem (l : List ℚ) (h : l ≠ []) : listMax l ∈ l := by
  cases l with
  | nil => exact absurd rfl h
  | cons y ys =>
      have h0 : listMax (y :: ys) = ys.foldl max y := rfl
      rcases foldl_max_mem ys y with h1 | h1
      · rw [h0, h1]; exact List.mem_cons_self y ys
      · rw [h0]; exact List.mem_cons_of_mem y h1

theorem listMax_abs_nonneg (l : List ℚ) (hl : l ≠ []) :
    0 ≤ listMax (l.map (fun v => |v|)) := by
  have hne : l.map (fun v => |v|) ≠ [] := by
    intro hc; exact hl (List.map_eq_nil_iff.mp hc)
  obtain ⟨v, _, heq⟩ := List.mem_map.mp (listMax_mem _ hne)
  rw [← heq]
  exact abs_nonneg v

theorem listMax_abs_scale (c : ℚ) (hc : 0 ≤ c) (l : List ℚ) (hl : l ≠ []) :
    listMax (l.map (fun v => |c * v|)) = c * listMax (l.map (fun v => |v|)) := by
  have hne : l.map (fun v => |v|) ≠ [] := by
    intro hcl; exact hl (List.map_eq_nil_iff.mp hcl)
  have hne2 : l.map (fun v => |c * v|) ≠ [] := by
    intro hcl; exact hl (List.map_eq_nil_iff.mp hcl)
  apply le_antisymm
  · obtain ⟨v, hv, heq⟩ := List.mem_map.mp (listMax_mem _ hne2)
    rw [← heq, abs_mul, abs_of_nonneg hc]
    exact mul_le_mul_of_nonneg_left (le_listMax _ _ (List.mem_map_of_mem _ hv)) hc
  · obtain ⟨v, hv, heq⟩ := List.mem_map.mp (listMax_mem _ hne)
    rw [← heq]
    calc c * |v| = |c * v| := by rw [abs_mul, abs_of_nonneg hc]
    _ ≤ listMax (l.map (fun v => |c * v|)) :=
        le_listMax _ _ (List.mem_map_of_mem _ hv)

theorem rescale_layout_bounds (P : List Q2) (scale : ℚ) (hP : P ≠ []) (hs : 0 < scale) :
    (∀ p ∈ rescale_layout P scale, |p.1| ≤ scale ∧ |p.2| ≤ scale)
    ∧ ((∃ p ∈ P, ∃ q ∈ P, p ≠ q) → maxAbsCoord (rescale_layout P scale) = scale) := by
  have hxs0 : P.map Prod.fst ≠ [] := fun hc => hP (List.map_eq_nil_iff.mp hc)
  have hys0 : P.map Prod.snd ≠ [] := fun hc => hP (List.map_eq_nil_iff.mp hc)
  set mx := listMean (P.map Prod.fst) with hmx
  set my := listMean (P.map Prod.snd) with hmy
  set xs := (P.map Prod.fst).map (fun x => x - mx) with hxs
  set ys := (P.map Prod.snd).map (fun y => y - my) with hys
  have hxsne : xs ≠ [] := fun hc => hxs0 (List.map_eq_nil_iff.mp hc)
  have hysne : ys ≠ [] := fun hc => hys0 (List.map_eq_nil_iff.mp hc)
  set limx := listMax (xs.map (fun x => |x|)) with hlimx
  set limy := listMax (ys.map (fun y => |y|)) with hlimy
  have hlimx0 : 0 ≤ limx := listMax_abs_nonneg xs hxsne
  have hlimy0 : 0 ≤ limy := listMax_abs_nonneg ys hysne
  set lim := max limy (max limx 0) with hlim
  have hlim_eq : lim = max limx limy := by
    rw [hlim, max_eq_left hlimx0, max_comm]
  have hlimx_le : limx ≤ lim := by rw [hlim_eq]; exact le_max_left _ _
  have hlimy_le : limy ≤ lim := by rw [hlim_eq]; exact le_max_right _ _
  have hxs_len : xs.length = P.length := by rw [hxs]; simp
  have hys_len : ys.length = P.length := by rw [hys]; simp
  have hzip_fst : (List.zip xs ys).map Prod.fst = xs :=
    List.map_fst_zip xs ys (by rw [hxs_len, hys_len])
  have hzip_snd : (List.zip xs ys).map Prod.snd = ys :=
    List.map_snd_zip xs ys (by rw [hxs_len, hys_len])
  have hbx : ∀ x ∈ xs, |x| ≤ limx := fun x hx =>
    le_listMax _ _ (List.mem_map_of_mem _ hx)
  have hby : ∀ y ∈ ys, |y| ≤ limy := fun y hy =>
    le_listMax _ _ (List.mem_map_of_mem _ hy)
  have hrw : rescale_layout P scale =
      if 0 < lim then (List.zip xs ys).map (fun p => (scale / lim * p.1, scale / lim * p.2))
      else List.zip xs ys := by
    rw [rescale_layout]
  constructor
  · intro p hp
    rw [hrw] at hp
    by_cases hpos : 0 < lim
    · rw [if_pos hpos] at hp
      obtain ⟨q, hq, hpq⟩ := List.mem_map.mp hp
      obtain ⟨hq1, hq2⟩ := List.of_mem_zip hq
      have hc : 0 ≤ scale / lim := le_of_lt (div_pos hs hpos)
      have hb1 : |p.1| ≤ scale := by
        rw [← hpq]
        calc |scale / lim * q.1| = scale / lim * |q.1| := by
              rw [abs_mul, abs_of_nonneg hc]
          _ ≤ scale / lim * lim :=
              mul_le_mul_of_nonneg_left (le_trans (hbx q.1 hq1) hlimx_le) hc
          _ = scale := div_mul_cancel₀ scale (ne_of_gt hpos)
      have hb2 : |p.2| ≤ scale := by
        rw [← hpq]
        calc |scale / lim * q.2| = scale / lim * |q.2| := by
              rw [abs_mul, abs_of_nonneg hc]
          _ ≤ scale / lim * lim :=
              mul_le_mul_of_nonneg_left (le_trans (hby q.2 hq2) hlimy_le) hc
          _ = scale := div_mul_cancel₀ scale (ne_of_gt hpos)
      exact ⟨hb1, hb2⟩
    · rw [if_neg hpos] at hp
      have hlim0 : lim = 0 := le_antisymm (not_lt.mp hpos)
        (le_trans (le_max_right limx 0) (le_max_right limy (max limx 0)))
      obtain ⟨hq1, hq2⟩ := List.of_mem_zip hp
      have h1 : |p.1| ≤ limx := hbx p.1 hq1
      have h2 : |p.2| ≤ limy := hby p.2 hq2
      have hx0 : limx ≤ 0 := by
        have := hlimx_le; rw [hlim0] at this; exact this
      have hy0 : limy ≤ 0 := by
        have := hlimy_le; rw [hlim0] at this; exact this
      exact ⟨le_trans h1 (le_trans hx0 (le_of_lt hs)),
        le_trans h2 (le_trans hy0 (le_of_lt hs))⟩
  · rintro ⟨p, hpP, q, hqP, hpq⟩
    have hlimpos : 0 < lim := by
      have hne1 : p.1 ≠ q.1 ∨ p.2 ≠ q.2 := by
        by_contra hc
        push_neg at hc
        exact hpq (Prod.ext hc.1 hc.2)
      have key : ∀ (u v : ℚ), u ∈ xs → v ∈ xs → u ≠ v → 0 < limx := by
        intro u v hu hv huv
        by_cases hu0 : u = 0
        · have hv0 : v ≠ 0 := fun hc => huv (by rw [hu0, hc])
          exact lt_of_lt_of_le (abs_pos.mpr hv0) (hbx v hv)
        · exact lt_of_lt_of_le (abs_pos.mpr hu0) (hbx u hu)
      have keyy : ∀ (u v : ℚ), u ∈ ys → v ∈ ys → u ≠ v → 0 < limy := by
        intro u v hu hv huv
        by_cases hu0 : u = 0
        · have hv0 : v ≠ 0 := fun hc => huv (by rw [hu0, hc])
          exact lt_of_lt_of_le (abs_pos.mpr hv0) (hby v hv)
        · exact lt_of_lt_of_le (abs_pos.mpr hu0) (hby u hu)
      rcases hne1 with hne1 | hne1
      · have hu : p.1 - mx ∈ xs := by
          rw [hxs]
          exact List.mem_map_of_mem _ (List.mem_map_of_mem _ hpP)
        have hv : q.1 - mx ∈ xs := by
          rw [hxs]
          exact List.mem_map_of_mem _ (List.mem_map_of_mem _ hqP)
        have huv : p.1 - mx ≠ q.1 - mx := by
          intro hc; exact hne1 (by linarith [sub_left_injective.eq_iff.mp hc])
        exact lt_of_lt_of_le (key _ _ hu hv huv) hlimx_le
      · have hu : p.2 - my ∈ ys := by
          rw [hys]
          exact List.mem_map_of_mem _ (List.mem_map_of_mem _ hpP)
        have hv : q.2 - my ∈ ys := by
          rw [hys]
          exact List.mem_map_of_mem _ (List.mem_map_of_mem _ hqP)
        have huv : p.2 - my ≠ q.2 - my := by
          intro hc; exact hne1 (by linarith [sub_left_injective.eq_iff.mp hc])
        exact lt_of_lt_of_le (keyy _ _ hu hv huv) hlimy_le
    have hc : 0 ≤ scale / lim := le_of_lt (div_pos hs hlimpos)
    rw [hrw, if_pos hlimpos, maxAbsCoord]
    have hmap1 : (((List.zip xs ys).map
        (fun p => (scale / lim * p.1, scale / lim * p.2))).map (fun p => |p.1|))
        = xs.map (fun v => |scale / lim * v|) := by
      rw [List.map_map]
      have hco : ((fun p : Q2 => |p.1|) ∘ fun p : Q2 => (scale / lim * p.1, scale / lim * p.2))
          = ((fun v : ℚ => |scale / lim * v|) ∘ Prod.fst) := rfl
      rw [hco, ← List.map_map, hzip_fst]
    have hmap2 : (((List.zip xs ys).map
        (fun p => (scale / lim * p.1, scale / lim * p.2))).map (fun p => |p.2|))
        = ys.map (fun v => |scale / lim * v|) := by
      rw [List.map_map]
      have hco : ((fun p : Q2 => |p.2|) ∘ fun p : Q2 => (scale / lim * p.1, scale / lim * p.2))
          = ((fun v : ℚ => |scale / lim * v|) ∘ Prod.snd) := rfl
      rw [hco, ← List.map_map, hzip_snd]
    rw [hmap1, hmap2, listMax_abs_scale _ hc xs hxsne, listMax_abs_scale _ hc ys hysne]
    rw [← hlimx, ← hlimy]
    rcases le_total limx limy with hle | hle
    · rw [max_eq_right (mul_le_mul_of_nonneg_left hle hc)]
      have : lim = limy := by rw [hlim_eq, max_eq_right hle]
      rw [this] at hc ⊢
      exact div_mul_cancel₀ scale (ne_of_gt (lt_of_lt_of_le
        (by rw [← this]; exact hlimpos) (le_refl _)))
    · rw [max_eq_left (mul_le_mul_of_nonneg_left hle hc)]
      have : lim = limx := by rw [hlim_eq, max_eq_left hle]
      rw [this] at hc ⊢
      exact div_mul_cancel₀ scale (ne_of_gt (lt_of_lt_of_le
        (by rw [← this]; exact hlimpos) (le_refl _)))

theorem dense_loop_length (sq : ℚ → ℚ) (A : ℕ → ℕ → ℚ) (kk : ℚ) (fixed : List ℕ)
    (dt : ℚ) : ∀ (n : ℕ) (t : ℚ) (pos : List Q2),
    (dense_loop sq A kk fixed dt n t pos).length = pos.length
  | 0, _, _ => rfl
  | n + 1, t, pos => by
      rw [dense_loop, dense_loop_length sq A kk fixed dt n, dense_step,
        mapIdxFrom_length]

theorem node_layout_core_length (sq : ℚ → ℚ) (A : ℕ → ℕ → ℚ) (kk : ℚ)
    (pos : List Q2) (fixed : List ℕ) (iterations : ℕ) :
    (node_layout_core sq A kk pos fixed iterations).length = pos.length := by
  unfold node_layout_core
  by_cases h5 : 500 < pos.length
  · rw [if_pos h5]
    simp only [sparse_fruchterman_reingold]
    rw [sparse_loop_eq_dense_loop, dense_loop_length]
  · rw [if_neg h5]
    simp only [dense_fruchterman_reingold]
    rw [dense_loop_length]

/-- C7 (amended): after an unconstrained layout (fixed = None, center at the
origin) every output coordinate has absolute value at most the requested
scale; and the maximum absolute coordinate over both axes equals the scale
provided the positions the solver hands to _rescale_layout are not all
coincident.  (The claim conditions non-degeneracy on the *input* positions;
that is not sufficient — mutually attracted nodes can land on exactly the
same point during iteration, see the counterexample.) -/
theorem rescale_extent_after_layout (sq : ℚ → ℚ) (A : ℕ → ℕ → ℚ) (kk : ℚ)
    (pos : List Q2) (iterations : ℕ) (scale : ℚ)
    (h1 : pos ≠ []) (h2 : 0 < scale) :
    (∀ p ∈ fruchterman_reingold_layout sq A kk pos none iterations scale (0, 0),
        |p.1| ≤ scale ∧ |p.2| ≤ scale)
    ∧ ((∃ p ∈ node_layout_core sq A kk pos [] iterations,
          ∃ q ∈ node_layout_core sq A kk pos [] iterations, p ≠ q) →
        maxAbsCoord (fruchterman_reingold_layout sq A kk pos none iterations scale (0, 0))
          = scale) := by
  have hcore_ne : node_layout_core sq A kk pos [] iterations ≠ [] := by
    intro hc
    apply h1
    have hlen := node_layout_core_length sq A kk pos [] iterations
    rw [hc] at hlen
    exact List.length_eq_zero.mp hlen.symm
  have hlay : fruchterman_reingold_layout sq A kk pos none iterations scale (0, 0)
      = rescale_layout (node_layout_core sq A kk pos [] iterations) scale := by
    rw [fruchterman_reingold_layout]
    simp [qadd]
  have hmain := rescale_layout_bounds (node_layout_core sq A kk pos [] iterations)
    scale hcore_ne h2
  rw [hlay]
  exact hmain

/-- C7 (witness): two distinct nodes, zero iterations, scale 1/2: the solver
returns the inputs unchanged and the rescaled output has maximum absolute
coordinate exactly 1/2. -/
theorem rescale_extent_after_layout_witness :
    ([((0 : ℚ), (0 : ℚ)), (1, 0)] : List Q2) ≠ []
    ∧ (0 : ℚ) < 1 / 2
    ∧ maxAbsCoord (fruchterman_reingold_layout (sqrtTable []) (fun _ _ => 0) 1
        [(0, 0), (1, 0)] none 0 (1 / 2) (0, 0)) = 1 / 2 := by
  refine ⟨by simp, by norm_num, ?_⟩
  have hcore : node_layout_core (sqrtTable []) (fun _ _ => 0) 1 [(0, 0), (1, 0)] [] 0
      = [((0 : ℚ), (0 : ℚ)), (1, 0)] := rfl
  refine (rescale_extent_after_layout (sqrtTable []) (fun _ _ => 0) 1
    [(0, 0), (1, 0)] 0 (1 / 2) (by simp) (by norm_num)).2 ?_
  refine ⟨((0 : ℚ), (0 : ℚ)), ?_, ((1 : ℚ), (0 : ℚ)), ?_, ?_⟩
  · rw [hcore]; simp
  · rw [hcore]; simp
  · simp [Prod.ext_iff]

set_option maxHeartbeats 8000000 in
/-- C7 (counterexample): distinct input positions (0,0) and (1,0), no fixed
nodes, scale 1, k = 1, edges 0↔1 with weight 1000, 14 iterations, and an
exact square root at every norm that arises.  The two mutually attracted
nodes are displaced by exactly the temperature towards each other on each of
the first six iterations and meet at (1/2, 0) (the residual distance hits
2·t exactly), after which all forces cancel; _rescale_layout then centers
the coincident rows to (0,0) and, with a zero limit, applies no scaling, so
the maximum absolute output coordinate is 0, not the requested scale 1 —
refuting the claim's "equals the requested scale" for non-coincident
inputs. -/
theorem layout_collapse_breaks_max_extent :
    fruchterman_reingold_layout
        (sqrtTable [0, 1, 4/5, 46/75, 11/25, 7/25, 2/15, 999, 2555/4, 775313/2070,
          10523/55, 2619/35, 185/18])
        (fun i j => if i = j then 0 else 1000) 1 [(0, 0), (1, 0)] none 14 1 (0, 0)
      = [(0, 0), (0, 0)]
    ∧ (((0 : ℚ), (0 : ℚ)) : Q2) ≠ ((1 : ℚ), (0 : ℚ))
    ∧ maxAbsCoord [(((0 : ℚ), (0 : ℚ)) : Q2), ((0 : ℚ), (0 : ℚ))] = 0
    ∧ (0 : ℚ) ≠ 1 := by
  refine ⟨?_, by simp [Prod.ext_iff], by norm_num [maxAbsCoord, listMax], by norm_num⟩
  norm_num [fruchterman_reingold_layout, node_layout_core, dense_fruchterman_reingold,
    dense_loop, dense_step, dense_displacement, fr_scaled_step, mapIdxFrom, posD,
    listMax, listMin, listMean, rescale_layout, qadd, qsub, qscale, sqnorm,
    sqrtTable, List.range_succ, max_def, min_def, Prod.ext_iff]

theorem onLine_affine (a b : Q2) (f : ℚ) : onLine a b (qadd (qscale f (qsub b a)) a) := by
  simp only [onLine, qadd, qscale, qsub]
  ring

theorem linspace_interior (n : ℕ) :
    ((linspace01 (n + 2)).drop 1).dropLast
      = (List.range n).map (fun (j : ℕ) => ((j : ℚ) + 1) / ((n : ℚ) + 1)) := by
  have hlen : ((linspace01 (n + 2)).drop 1).length = n + 1 := by
    rw [List.length_drop, linspace01, List.length_map, List.length_range]
    omega
  apply List.ext_getElem?
  intro j
  rw [List.getElem?_dropLast, hlen]
  by_cases hj : j < n
  · rw [if_pos (by omega : j < n + 1 - 1)]
    rw [List.getElem?_drop, linspace01, List.getElem?_map,
      List.getElem?_range (by omega : 1 + j < n + 2)]
    rw [List.getElem?_map, List.getElem?_range hj]
    simp only [Option.map_some']
    congr 1
    push_cast
    ring
  · rw [if_neg (by omega : ¬ j < n + 1 - 1)]
    rw [List.getElem?_map, List.getElem?_eq_none (by simpa using not_lt.mp hj)]
    rfl

/-- With parallel-edge bundling enabled the lateral-offset branch of
_initialize_nonloop_control_point_positions is dead code, leaving the pure
linspace seeding. -/
theorem init_positions_bundle_true (sq : ℚ → ℚ) (cps : List (Edge × ℕ))
    (nodePos : ℕ → Q2) :
    init_nonloop_control_point_positions sq cps nodePos true
      = cps.map (fun en => (en.1, (((linspace01 (en.2 + 2)).drop 1).dropLast).map
          (fun f => qadd (qscale f (qsub (nodePos en.1.2) (nodePos en.1.1)))
            (nodePos en.1.1)))) := rfl

/-- C8 (amended): every non-self-loop edge receives between 1 and 5 control
points, the count being exactly min(max(int(10·length/|scale|), 1), 5); with
parallel-edge bundling enabled (the default) the seeds are exactly the
points source + (j+1)/(n+1) · (target - source), j < n — equally spaced,
strictly between the endpoints (fractions in (0,1)) and collinear with them.
(With bundling disabled and the reverse edge present, the seeds are
additionally shifted off the line — see the counterexample.) -/
theorem control_point_seeding (sq : ℚ → ℚ) (edges : List Edge) (nodePos : ℕ → Q2)
    (scale : Q2) (e : Edge) (n : ℕ)
    (h : (e, n) ∈ init_nonloop_control_points sq edges nodePos scale) :
    (1 ≤ n ∧ n ≤ 5
      ∧ (n : ℤ) = min (max (pyInt (sq (sqnorm (qsub (nodePos e.2) (nodePos e.1)))
          / sq (sqnorm scale) * 10)) 1) 5)
    ∧ (∀ pts, (e, pts) ∈ init_nonloop_control_point_positions sq
          (init_nonloop_control_points sq edges nodePos scale) nodePos true →
        pts.length = n
        ∧ (∀ j, j < n → pts[j]? = some (qadd (qscale (((j : ℚ) + 1) / ((n : ℚ) + 1))
              (qsub (nodePos e.2) (nodePos e.1))) (nodePos e.1)))
        ∧ (∀ j, j < n → 0 < ((j : ℚ) + 1) / ((n : ℚ) + 1)
              ∧ ((j : ℚ) + 1) / ((n : ℚ) + 1) < 1)
        ∧ (∀ p ∈ pts, onLine (nodePos e.1) (nodePos e.2) p)) := by
  obtain ⟨a, haE, hae⟩ := List.mem_map.mp h
  have hea : a = e := congrArg Prod.fst hae
  subst hea
  have hn : n = (min (max (pyInt (sq (sqnorm (qsub (nodePos a.2) (nodePos a.1)))
      / sq (sqnorm scale) * 10)) 1) 5).toNat := (congrArg Prod.snd hae).symm
  have hz1 : (1 : ℤ) ≤ min (max (pyInt (sq (sqnorm (qsub (nodePos a.2) (nodePos a.1)))
      / sq (sqnorm scale) * 10)) 1) 5 :=
    le_min (le_max_right _ _) (by norm_num)
  have hz5 : min (max (pyInt (sq (sqnorm (qsub (nodePos a.2) (nodePos a.1)))
      / sq (sqnorm scale) * 10)) 1) 5 ≤ 5 := min_le_right _ _
  have hzn : (n : ℤ) = min (max (pyInt (sq (sqnorm (qsub (nodePos a.2) (nodePos a.1)))
      / sq (sqnorm scale) * 10)) 1) 5 := by
    rw [hn]
    exact Int.toNat_of_nonneg (le_trans (by norm_num) hz1)
  refine ⟨⟨by omega, by omega, hzn⟩, ?_⟩
  intro pts hpts
  rw [init_positions_bundle_true] at hpts
  obtain ⟨en, henE, hene⟩ := List.mem_map.mp hpts
  have he1 : en.1 = a := congrArg Prod.fst hene
  have hen2 : en.2 = n := by
    obtain ⟨b, hbE, hbe⟩ := List.mem_map.mp henE
    have hb1 : b = en.1 := congrArg Prod.fst hbe
    have hb2 := congrArg Prod.snd hbe
    rw [hb1, he1] at hb2
    rw [← hb2, hn]
  rw [Prod.mk.injEq] at hene
  obtain ⟨he1x, hX⟩ := hene
  rw [he1, hen2] at hX
  rw [← hX, linspace_interior]
  have hnpos : (0 : ℚ) < (n : ℚ) + 1 := by positivity
  refine ⟨?_, ?_, ?_, ?_⟩
  · rw [List.length_map, List.length_map, List.length_range]
  · intro j hj
    rw [List.getElem?_map, List.getElem?_map, List.getElem?_range hj]
    rfl
  · intro j hj
    refine ⟨by positivity, ?_⟩
    rw [div_lt_one hnpos]
    have hjq : (j : ℚ) < (n : ℚ) := by exact_mod_cast hj
    linarith
  · intro p hp
    obtain ⟨f, _, hf⟩ := List.mem_map.mp hp
    rw [← hf]
    exact onLine_affine (nodePos a.1) (nodePos a.2) f

theorem int_toNat_two : Int.toNat 2 = 2 := rfl

/-- C8 (witness): a single edge from (0,0) to (1,0) on a canvas with
|scale| = 5 gets int(10 · 1/5) = 2 control points, within [1, 5]. -/
theorem control_point_seeding_witness :
    ((((0 : ℕ), (1 : ℕ)), (2 : ℕ)) ∈ init_nonloop_control_points (sqrtTable [1, 5])
        [(0, 1)] (fun i => if i = 0 then ((0 : ℚ), (0 : ℚ)) else (1, 0)) (3, 4))
    ∧ (1 ≤ (2 : ℕ) ∧ (2 : ℕ) ≤ 5) := by
  have hmem : init_nonloop_control_points (sqrtTable [1, 5]) [(0, 1)]
      (fun i => if i = 0 then ((0 : ℚ), (0 : ℚ)) else (1, 0)) (3, 4)
      = [(((0 : ℕ), (1 : ℕ)), (2 : ℕ))] := by
    norm_num [init_nonloop_control_points, pyInt, qsub, sqnorm, sqrtTable,
      Int.floor_ofNat, int_toNat_two]
  have hm2 : (((0 : ℕ), (1 : ℕ)), (2 : ℕ)) ∈ init_nonloop_control_points
      (sqrtTable [1, 5]) [(0, 1)]
      (fun i => if i = 0 then ((0 : ℚ), (0 : ℚ)) else (1, 0)) (3, 4) := by
    rw [hmem]; simp
  have h := control_point_seeding (sqrtTable [1, 5]) [(0, 1)]
    (fun i => if i = 0 then ((0 : ℚ), (0 : ℚ)) else (1, 0)) (3, 4) (0, 1) 2 hm2
  exact ⟨hm2, h.1.1, h.1.2.1⟩

/-- C8 (counterexample): with parallel-edge bundling disabled and the reverse
edge present, the seeded control points are shifted off the connecting line:
for edges (0,1) and (1,0) between nodes (0,0) and (1,0) on a canvas of
|scale| = 5, the seeds of edge (0,1) are (1/3, -1/1000) and (2/3, -1/1000) —
not collinear with the endpoints (whose segment has y = 0), refuting the
claim's "seeded ... on the straight line connecting them" in this
configuration. -/
theorem seeding_off_line_when_unbundled :
    init_nonloop_control_point_positions (sqrtTable [1, 5])
        (init_nonloop_control_points (sqrtTable [1, 5]) [(0, 1), (1, 0)]
          (fun i => if i = 0 then ((0 : ℚ), (0 : ℚ)) else (1, 0)) (3, 4))
        (fun i => if i = 0 then ((0 : ℚ), (0 : ℚ)) else (1, 0)) false
      = [((0, 1), [(1/3, -1/1000), (2/3, -1/1000)]),
         ((1, 0), [(2/3, 1/1000), (1/3, 1/1000)])]
    ∧ ¬ onLine ((0 : ℚ), (0 : ℚ)) (1, 0) (1/3, -1/1000) := by
  constructor
  · norm_num [init_nonloop_control_point_positions, init_nonloop_control_points,
      linspace01, get_orthogonal_unit_vector, alKeys, pyInt, qadd, qsub, qscale,
      sqnorm, sqrtTable, List.range_succ, List.dropLast, Int.floor_ofNat,
      int_toNat_two, Prod.ext_iff]
  · norm_num [onLine]

/-- C1: the repository-side path constructions deliver exact endpoints: a
straight non-loop path starts at the source and ends at the target position,
and the control-point sequence that _get_path_through_control_points hands to
the spline smoother likewise starts and ends exactly at the node positions.
(The claim fails at the bundled smoothing step _smooth_path, which fits a
scipy UnivariateSpline with smoothing s=0.001 — a smoothing, not an
interpolating, spline — whose value at the end parameters need not equal the
first/last control point; see the recorded divergence.) -/
theorem paths_reach_endpoints (nodePos : ℕ → Q2) (edges : List Edge)
    (cps : List (Edge × List Q2)) (e : Edge) (pts : List Q2) :
    ((e, pts) ∈ get_straight_nonloop_edge_paths edges nodePos →
      pts.head? = some (nodePos e.1) ∧ pts.getLast? = some (nodePos e.2))
    ∧ ((e, pts) ∈ get_path_through_control_points cps nodePos →
      pts.head? = some (nodePos e.1) ∧ pts.getLast? = some (nodePos e.2)) := by
  constructor
  · intro h
    obtain ⟨a, _, hae⟩ := List.mem_map.mp h
    rw [Prod.mk.injEq] at hae
    obtain ⟨h1, h2⟩ := hae
    subst h1
    rw [← h2]
    exact ⟨rfl, rfl⟩
  · intro h
    obtain ⟨ev, _, hae⟩ := List.mem_map.mp h
    rw [Prod.mk.injEq] at hae
    obtain ⟨h1, h2⟩ := hae
    subst h1
    rw [← h2]
    refine ⟨rfl, ?_⟩
    rw [show nodePos ev.1.1 :: ev.2 ++ [nodePos ev.1.2]
        = (nodePos ev.1.1 :: ev.2) ++ [nodePos ev.1.2] from rfl, List.getLast?_concat]

/-- C1 (witness): the straight path of the edge (0,1) between (0,0) and
(1,0) starts and ends exactly at those positions. -/
theorem paths_reach_endpoints_witness :
    ([((0 : ℚ), (0 : ℚ)), (1, 0)].head? = some ((0 : ℚ), (0 : ℚ)))
    ∧ ([((0 : ℚ), (0 : ℚ)), (1, 0)].getLast? = some ((1 : ℚ), (0 : ℚ))) := by
  have hmem : (((0, 1) : Edge), [((0 : ℚ), (0 : ℚ)), ((1 : ℚ), (0 : ℚ))])
      ∈ get_straight_nonloop_edge_paths [(0, 1)]
        (fun i => if i = 0 then ((0 : ℚ), (0 : ℚ)) else (1, 0)) := by
    simp [get_straight_nonloop_edge_paths]
  have h := (paths_reach_endpoints (fun i => if i = 0 then ((0 : ℚ), (0 : ℚ)) else (1, 0))
    [(0, 1)] [] (0, 1) [((0 : ℚ), (0 : ℚ)), ((1 : ℚ), (0 : ℚ))]).1 hmem
  exact h

theorem alKeys_map_snd {β γ : Type} (l : List (Edge × β)) (g : Edge × β → γ) :
    alKeys (l.map (fun ev => (ev.1, g ev))) = alKeys l := by
  unfold alKeys
  rw [List.map_map]
  rfl

theorem alKeys_keyed {β : Type} (l : List Edge) (g : Edge → β) :
    alKeys (l.map (fun e => (e, g e))) = l := by
  unfold alKeys
  rw [List.map_map]
  exact List.map_id l

theorem alKeys_alUpd {β : Type} (l : List (Edge × β)) (k : Edge) (f : β → β) :
    alKeys (alUpd l k f) = alKeys l := by
  unfold alKeys alUpd
  rw [List.map_map]
  apply List.map_congr_left
  intro kv _
  by_cases h : kv.1 = k <;> simp [h]

theorem alKeys_get_Fe (compat : List (Edge × Edge × ℚ × Bool))
    (cps : List (Edge × List Q2)) :
    ∀ out : List (Edge × List Q2), alKeys (get_Fe cps compat out) = alKeys out := by
  unfold get_Fe
  induction compat with
  | nil => intro out; rfl
  | cons item rest ih =>
      intro out
      rw [List.foldl_cons]
      rw [ih]
      rw [alKeys_alUpd, alKeys_alUpd]

theorem alKeys_update (sq : ℚ → ℚ) (F : List (Edge × List Q2)) (step_size : ℚ) :
    ∀ cps : List (Edge × List Q2),
      alKeys (update_control_point_positions sq cps F step_size) = alKeys cps := by
  unfold update_control_point_positions
  induction F with
  | nil => intro cps; rfl
  | cons ev rest ih =>
      intro cps
      rw [List.foldl_cons, ih, alKeys_alUpd]

theorem alKeys_bundle_inner (sq : ℚ → ℚ) (compat : List (Edge × Edge × ℚ × Bool))
    (edge_to_k : List (Edge × ℚ)) (step_size : ℚ) :
    ∀ (n : ℕ) (cps : List (Edge × List Q2)),
      alKeys (bundle_inner sq compat edge_to_k step_size n cps) = alKeys cps
  | 0, _ => rfl
  | n + 1, cps => by
      rw [bundle_inner, alKeys_bundle_inner sq compat edge_to_k step_size n,
        alKeys_update]

theorem alKeys_expand (cps : List (Edge × List Q2)) :
    alKeys (expand_control_points cps) = alKeys cps :=
  alKeys_map_snd cps (fun ev => expand_path ev.2)

theorem alKeys_bundle_cycles (sq : ℚ → ℚ) (compat : List (Edge × Edge × ℚ × Bool))
    (edge_to_k : List (Edge × ℚ)) :
    ∀ (c iters : ℕ) (step_size : ℚ) (cps : List (Edge × List Q2)),
      alKeys (bundle_cycles sq compat edge_to_k c iters step_size cps) = alKeys cps
  | 0, _, _, _ => rfl
  | c + 1, iters, step_size, cps => by
      rw [bundle_cycles, alKeys_bundle_cycles sq compat edge_to_k c,
        alKeys_bundle_inner, alKeys_expand]

theorem alKeys_append {β : Type} (l1 l2 : List (Edge × β)) :
    alKeys (l1 ++ l2) = alKeys l1 ++ alKeys l2 := List.map_append _ l1 l2

theorem alKeys_reverse_fold :
    ∀ (rev : List Edge) (cps : List (Edge × List Q2)),
      alKeys (rev.foldl (fun cps e => cps ++ [(e, (alGet cps (e.2, e.1) []).reverse)]) cps)
        = alKeys cps ++ rev
  | [], cps => by simp
  | e :: rest, cps => by
      rw [List.foldl_cons, alKeys_reverse_fold rest, alKeys_append]
      simp [alKeys]

theorem collapse_mono : ∀ (rest acc : List Edge) (e : Edge), e ∈ acc →
    e ∈ collapse_bidirectional acc rest
  | [], _, _, h => h
  | f :: rest, acc, e, h => by
      rw [collapse_bidirectional]
      by_cases h1 : (f.2, f.1) ∈ acc
      · rw [if_pos h1]; exact collapse_mono rest acc e h
      · rw [if_neg h1]
        by_cases h2 : f ∈ acc
        · rw [if_pos h2]; exact collapse_mono rest acc e h
        · rw [if_neg h2]
          exact collapse_mono rest (acc ++ [f]) e (List.mem_append_left _ h)

theorem collapse_subset : ∀ (rest acc : List Edge) (e : Edge),
    e ∈ collapse_bidirectional acc rest → e ∈ acc ∨ e ∈ rest
  | [], acc, e, h => Or.inl h
  | f :: rest, acc, e, h => by
      rw [collapse_bidirectional] at h
      by_cases h1 : (f.2, f.1) ∈ acc
      · rw [if_pos h1] at h
        rcases collapse_subset rest acc e h with h2 | h2
        · exact Or.inl h2
        · exact Or.inr (List.mem_cons_of_mem f h2)
      · rw [if_neg h1] at h
        by_cases h2 : f ∈ acc
        · rw [if_pos h2] at h
          rcases collapse_subset rest acc e h with h3 | h3
          · exact Or.inl h3
          · exact Or.inr (List.mem_cons_of_mem f h3)
        · rw [if_neg h2] at h
          rcases collapse_subset rest (acc ++ [f]) e h with h3 | h3
          · rcases List.mem_append.mp h3 with h4 | h4
            · exact Or.inl h4
            · exact Or.inr (by
                rcases List.mem_singleton.mp h4 with h5
                exact h5 ▸ List.mem_cons_self f rest)
          · exact Or.inr (List.mem_cons_of_mem f h3)

theorem collapse_covers : ∀ (rest acc : List Edge) (e : Edge), e ∈ rest →
    e ∈ collapse_bidirectional acc rest ∨ (e.2, e.1) ∈ collapse_bidirectional acc rest
  | [], _, _, h => absurd h (List.not_mem_nil _)
  | f :: rest, acc, e, h => by
      rw [collapse_bidirectional]
      rcases List.mem_cons.mp h with he | he
      · subst he
        by_cases h1 : (e.2, e.1) ∈ acc
        · rw [if_pos h1]
          exact Or.inr (collapse_mono rest acc _ h1)
        · rw [if_neg h1]
          by_cases h2 : e ∈ acc
          · rw [if_pos h2]
            exact Or.inl (collapse_mono rest acc e h2)
          · rw [if_neg h2]
            exact Or.inl (collapse_mono rest (acc ++ [e]) e
              (List.mem_append_right _ (List.mem_singleton.mpr rfl)))
      · by_cases h1 : (f.2, f.1) ∈ acc
        · rw [if_pos h1]; exact collapse_covers rest acc e he
        · rw [if_neg h1]
          by_cases h2 : f ∈ acc
          · rw [if_pos h2]; exact collapse_covers rest acc e he
          · rw [if_neg h2]; exact collapse_covers rest (acc ++ [f]) e he

theorem bundled_keys_eq (sq : ℚ → ℚ) (smoother : List Q2 → List Q2) (edges : List Edge)
    (nodePos : ℕ → Q2) (kk thr : ℚ) (cyc iters : ℕ) (step straighten : ℚ) :
    alKeys (get_bundled_edge_paths sq smoother edges nodePos kk thr cyc iters
        step straighten).1
      = collapse_bidirectional [] (if edges.any (fun e => e.1 = e.2)
            then edges.filter (fun e => decide (e.1 ≠ e.2)) else edges)
        ++ (if edges.any (fun e => e.1 = e.2)
            then edges.filter (fun e => decide (e.1 ≠ e.2)) else edges).dedup.filter
            (fun e => decide (e ∉ collapse_bidirectional []
              (if edges.any (fun e => e.1 = e.2)
                then edges.filter (fun e => decide (e.1 ≠ e.2)) else edges))) := by
  simp only [get_bundled_edge_paths]
  rw [alKeys_reverse_fold, alKeys_map_snd]
  by_cases hs : 0 < straighten
  · rw [if_pos hs]
    unfold straighten_edges
    rw [alKeys_map_snd, alKeys_bundle_cycles]
    unfold init_bundled_control_points
    rw [alKeys_keyed]
  · rw [if_neg hs]
    rw [alKeys_bundle_cycles]
    unfold init_bundled_control_points
    rw [alKeys_keyed]

theorem uni_rev_mem (E : List Edge) (e : Edge) :
    e ∈ collapse_bidirectional [] E
        ++ E.dedup.filter (fun x => decide (x ∉ collapse_bidirectional [] E))
      ↔ e ∈ E := by
  constructor
  · intro h
    rcases List.mem_append.mp h with h | h
    · rcases collapse_subset E [] e h with h1 | h1
      · exact absurd h1 (List.not_mem_nil e)
      · exact h1
    · exact List.mem_dedup.mp (List.mem_filter.mp h).1
  · intro h
    by_cases hu : e ∈ collapse_bidirectional [] E
    · exact List.mem_append_left _ hu
    · refine List.mem_append_right _ (List.mem_filter.mpr ⟨List.mem_dedup.mpr h, ?_⟩)
      simpa using hu

/-- C5 (amended): get_bundled_edge_paths never raises on self-loops — they
are dropped from the returned mapping (its keys are exactly the non-self-loop
edges of the input), the self-loop warning flag is set iff a self-loop is
present, and every other edge still receives a path; but
get_straight_edge_paths in _edge_layout.py supports self-loops: its result
keys are the non-loop edges followed by the self-loop edges (each routed as a
circular path), and it emits no warning. -/
theorem selfloop_handling_by_strategy (sq : ℚ → ℚ) (smoother : List Q2 → List Q2)
    (slpath : Q2 → ℚ → ℚ → List Q2) (edges : List Edge) (nodePos : ℕ → Q2)
    (kk thr step straighten radius angle : ℚ) (cyc iters : ℕ) :
    (∀ e : Edge, e ∈ alKeys (get_bundled_edge_paths sq smoother edges nodePos kk thr
        cyc iters step straighten).1 ↔ (e ∈ edges ∧ ¬ e.1 = e.2))
    ∧ (get_bundled_edge_paths sq smoother edges nodePos kk thr cyc iters
        step straighten).2 = edges.any (fun e => e.1 = e.2)
    ∧ alKeys (get_straight_edge_paths slpath edges nodePos radius angle).1
        = edges.filter (fun e => decide (e.1 ≠ e.2))
          ++ edges.filter (fun e => decide (e.1 = e.2))
    ∧ (get_straight_edge_paths slpath edges nodePos radius angle).2 = false := by
  refine ⟨?_, rfl, ?_, rfl⟩
  · intro e
    rw [bundled_keys_eq, uni_rev_mem]
    by_cases hw : edges.any (fun x => x.1 = x.2) = true
    · rw [if_pos hw, List.mem_filter]
      simp
    · rw [if_neg hw]
      constructor
      · intro he
        refine ⟨he, fun hc => ?_⟩
        rw [List.any_eq_true] at hw
        exact hw ⟨e, he, by simp [hc]⟩
      · exact fun h => h.1
  · simp only [get_straight_edge_paths, get_straight_nonloop_edge_paths]
    rw [alKeys_append, alKeys_keyed, alKeys_keyed]

/-- C5 (counterexample): the straight strategy of _edge_layout.py routes the
self-loop (0,0): the returned mapping contains the key (0,0) (so the edge is
not omitted) and no warning is emitted — contradicting the claim that with
the straight strategy a self-loop is dropped and a warning surfaced.  (The
self-loop circle geometry, living in the missing _utils module, is
instantiated with a stub path; the keys and the warning flag do not depend
on it.) -/
theorem straight_routes_selfloop_without_warning :
    alKeys (get_straight_edge_paths (fun p _ _ => [p]) [(0, 0), (0, 1)]
        (fun i => if i = 0 then ((0 : ℚ), (0 : ℚ)) else (1, 0)) (1/10) 0).1
      = [(0, 1), (0, 0)]
    ∧ (((0, 0) : Edge) ∈ alKeys (get_straight_edge_paths (fun p _ _ => [p])
        [(0, 0), (0, 1)]
        (fun i => if i = 0 then ((0 : ℚ), (0 : ℚ)) else (1, 0)) (1/10) 0).1)
    ∧ (get_straight_edge_paths (fun p _ _ => [p]) [(0, 0), (0, 1)]
        (fun i => if i = 0 then ((0 : ℚ), (0 : ℚ)) else (1, 0)) (1/10) 0).2 = false := by
  refine ⟨?_, ?_, rfl⟩ <;>
    simp [get_straight_edge_paths, get_straight_nonloop_edge_paths, alKeys]
